import Mathlib

/-!
Verification of the avalanche proof pool (`src/avalanche/proofpool.cpp`) and
the peer manager slot structure (`src/avalanche/peermanager.h`) against their
natural-language specification.

The pool is embedded shallowly: the boost multi-index container (declared in
the missing `proofpool.h` header) is modelled as a list of entries, one per
(staked output, proof) pair.  The by-output index is the unique-key view
(emplace fails when an entry with the same outpoint is already present) and
the by-proofid index is the per-proof-id view of the same entry list.
`COutPoint` and `ProofId` are opaque here and modelled as naturals.
C++ `assert` failures (program aborts) are modelled as `Option.none` results.
-/

namespace Avalanche

/-- Result codes of the pool insertion operations, from `proofpool.h`
(declaration missing from the sources; values per the spec's error taxonomy,
with `REJECTED` being the falsy value tested by `!added`). -/
inductive AddProofStatus where
  | REJECTED
  | DUPLICATED
  | SUCCEED
deriving DecidableEq, Repr

/-- A proof: unique id, ranking score consumed by the conflict comparator,
and the ordered list of staked outputs (each `COutPoint` as a natural). -/
structure Proof where
  id : Nat
  score : Nat
  stakes : List Nat
deriving DecidableEq, Repr

/-- One pool entry: a (staked output, owning proof) pair.  In the C++ the
entry stores the stake index `i` and the key extractor reads
`proof->getStakes()[i].getStake().getUTXO()`; here the extracted key is
stored directly. -/
structure PoolEntry where
  utxo : Nat
  proof : Proof
deriving DecidableEq, Repr

/-- The entry set underlying both indexes of the multi-index container. -/
abbrev Pool := List PoolEntry

/-- Whether the by-output index holds an entry for outpoint `u`. -/
def hasKey (pl : Pool) (u : Nat) : Bool :=
  pl.any (fun e => e.utxo == u)

/-- Whether the by-proofid index holds an entry for proof id `pid`
(the `poolView.find(proofid) != poolView.end()` test). -/
def hasProofId (pl : Pool) (pid : Nat) : Bool :=
  pl.any (fun e => e.proof.id == pid)

/-- The core pool invariant: no two live entries share a staked output. -/
abbrev uniqOutputs (pl : Pool) : Prop :=
  (pl.map (fun e => e.utxo)).Nodup

/-- Model of `std::set<ProofRef, ConflictingProofComparator>::insert`: ordered insert
that drops the new element when an equivalent one (neither compares ahead of
the other) is already present.  `cmp p q = true` means `p` is preferred to
`q`, so `begin()` (the list head) is the most preferred element. -/
def setInsert (cmp : Proof → Proof → Bool) (p : Proof) : List Proof → List Proof
  | [] => [p]
  | q :: t =>
    if cmp p q then p :: q :: t
    else if cmp q p then q :: setInsert cmp p t
    else q :: t

/-- The stake-attachment loop of `addProofIfNoConflict`: for each staked
output, `pool.emplace(i, proof)`; on a key collision the incumbent entry's
proof is recorded in the conflicting set instead. -/
def attachStakes (cmp : Proof → Proof → Bool) (proof : Proof) :
    List Nat → Pool → List Proof → Pool × List Proof
  | [], pl, cf => (pl, cf)
  | u :: rest, pl, cf =>
    match pl.find? (fun e => e.utxo == u) with
    | some e => attachStakes cmp proof rest pl (setInsert cmp e.proof cf)
    | none => attachStakes cmp proof rest (pl ++ [⟨u, proof⟩]) cf

/-- The conflict-cleanup loop of `addProofIfNoConflict`: for each staked
output, look the outpoint up (`assert(it != pool.end())`, modelled as `none`
on failure) and erase the entry when it belongs to the candidate proof. -/
def cleanupStakes (pid : Nat) : List Nat → Pool → Option Pool
  | [], pl => some pl
  | u :: rest, pl =>
    match pl.find? (fun e => e.utxo == u) with
    | none => none
    | some e =>
      if e.proof.id == pid then
        cleanupStakes pid rest (pl.eraseP (fun x => x.utxo == u))
      else cleanupStakes pid rest pl

/-- Model of `ProofPool::addProofIfNoConflict`.  Returns the status, the new entry
set, and the `conflictingProofs` out-parameter (cleared on entry); `none`
models an assertion failure. -/
def addProofIfNoConflict (cmp : Proof → Proof → Bool) (pl : Pool) (proof : Proof) :
    Option (AddProofStatus × Pool × List Proof) :=
  if hasProofId pl proof.id then some (.DUPLICATED, pl, [])
  else
    let r := attachStakes cmp proof proof.stakes pl []
    if r.2.isEmpty then some (.SUCCEED, r.1, r.2)
    else (cleanupStakes proof.id proof.stakes r.1).map (fun pl2 => (.REJECTED, pl2, r.2))

/-- Model of `ProofPool::removeProof`: erase every entry for the proof's id from the
by-proofid view; returns whether anything was erased, and the new entry set. -/
def removeProof (pl : Pool) (proof : Proof) : Bool × Pool :=
  (hasProofId pl proof.id, pl.filter (fun e => e.proof.id != proof.id))

/-- Model of `ProofPool::addProofIfPreferred`.  On `REJECTED`, when the comparator
ranks the candidate ahead of `*conflictingProofs.begin()`, every conflicting
proof is removed and the add retried; `assert(added == SUCCEED)` on the retry
is modelled as `none` when it fails.  `*begin()` on an empty set (unreachable)
is modelled as `none` as well. -/
def addProofIfPreferred (cmp : Proof → Proof → Bool) (pl : Pool) (proof : Proof) :
    Option (AddProofStatus × Pool × List Proof) :=
  (addProofIfNoConflict cmp pl proof).bind (fun r =>
    match r with
    | (.REJECTED, pl1, cf) =>
      match cf with
      | [] => none
      | c :: _ =>
        if cmp proof c then
          let pl2 := cf.foldl (fun acc q => (removeProof acc q).2) pl1
          (addProofIfNoConflict cmp pl2 proof).bind (fun r2 =>
            if r2.1 = AddProofStatus.SUCCEED then some (.SUCCEED, r2.2.1, cf) else none)
        else some (.REJECTED, pl1, cf)
    | other => some other)

/-- Model of `ProofPool::getProof(const ProofId &)`. -/
def getProofById (pl : Pool) (pid : Nat) : Option Proof :=
  (pl.find? (fun e => e.proof.id == pid)).map (fun e => e.proof)

/-- Model of `ProofPool::getProof(const COutPoint &)`. -/
def getProofByOutpoint (pl : Pool) (u : Nat) : Option Proof :=
  (pl.find? (fun e => e.utxo == u)).map (fun e => e.proof)

/-- Model of `ProofPool::rescan`: move the entry set out, clear the pool, replay each
previously held entry's proof through `peerManager.registerProof`.
`registerProof` itself is code missing from the sources (`peermanager.h`
declares no such member); it is kept abstract as a function on an arbitrary
registry state, which is faithful to the source in that it cannot reach back
into this pool's entry set. -/
def rescan {R : Type _} (registerProof : R → Proof → R) (s : Pool × R) : Pool × R :=
  ([], s.1.foldl (fun reg e => registerProof reg e.proof) s.2)

/-- The public mutating calls of the pool, for stating reachability. -/
inductive PoolOp where
  | addNoConflict (p : Proof)
  | addPreferred (p : Proof)
  | remove (p : Proof)
deriving DecidableEq, Repr

/-- One public call on the pool state; `none` models an aborted call. -/
def stepPool (cmp : Proof → Proof → Bool) (pl : Pool) : PoolOp → Option Pool
  | .addNoConflict p => (addProofIfNoConflict cmp pl p).map (fun r => r.2.1)
  | .addPreferred p => (addProofIfPreferred cmp pl p).map (fun r => r.2.1)
  | .remove p => some (removeProof pl p).2

/-- Run a sequence of public calls from a starting state. -/
def runPool (cmp : Proof → Proof → Bool) : List PoolOp → Pool → Option Pool
  | [], pl => some pl
  | op :: rest, pl => (stepPool cmp pl op).bind (runPool cmp rest)

/-- The proofs of the pool entries whose staked output is one of `stakes`:
the proofs that already claim at least one of those outputs. -/
def claimants (pl : Pool) (stakes : List Nat) : List Proof :=
  (pl.filter (fun e => stakes.contains e.utxo)).map (fun e => e.proof)

/-- The comparator property the claims assume on the relevant proofs: among
`ps`, two proofs neither of which is preferred to the other are equal
(the spec's strict total order, restricted to a finite carrier so that it is
checkable on concrete inputs). -/
abbrev TrichotOn (cmp : Proof → Proof → Bool) (ps : List Proof) : Prop :=
  ∀ a ∈ ps, ∀ b ∈ ps, cmp a b = false → cmp b a = false → a = b

/-- A concrete conflict comparator used for witnesses: higher score wins. -/
def scoreCmp (p q : Proof) : Bool :=
  decide (q.score < p.score)

/-- Model of `Slot` from `peermanager.h`: a half-open interval of the selection
domain.  The source's `uint64_t` values are naturals here; the three
predicates only compare, so this is faithful on all 64-bit inputs. -/
structure Slot where
  start : Nat
  stop : Nat
deriving DecidableEq, Repr

/-- Model of `Slot::contains`. -/
def Slot.contains (s : Slot) (x : Nat) : Bool :=
  decide (s.start ≤ x) && decide (x < s.stop)

/-- Model of `Slot::precedes`. -/
def Slot.precedes (s : Slot) (x : Nat) : Bool :=
  decide (x ≥ s.stop)

/-- Model of `Slot::follows`. -/
def Slot.follows (s : Slot) (x : Nat) : Bool :=
  decide (s.start > x)

/-- Model of the `PeerManager` state: the slot vector and the two counters from
`peermanager.h`. -/
structure PeerManager where
  slots : List Slot
  slotCount : Nat
  fragmentation : Nat
deriving DecidableEq, Repr

/-- Modelled from the spec: `PeerManager::rescorePeer` (its body lives in the
missing `peermanager.cpp`): the peer's existing slot is retired — its width
added to `fragmentation` — and, when the new score is positive, a brand-new
slot of that width is appended at the current `slotCount`, growing the
domain. -/
def rescorePeer (pm : PeerManager) (i : Nat) (score : Nat) : PeerManager :=
  match pm.slots.get? i with
  | none => pm
  | some s =>
    let retired : PeerManager :=
      ⟨pm.slots.eraseIdx i, pm.slotCount, pm.fragmentation + (s.stop - s.start)⟩
    if score = 0 then retired
    else
      ⟨retired.slots ++ [⟨pm.slotCount, pm.slotCount + score⟩],
       pm.slotCount + score, retired.fragmentation⟩

/-- Model of `PeerManager::removePeer`, defined inline in `peermanager.h` as
`rescorePeer(i, 0)`. -/
def removePeer (pm : PeerManager) (i : Nat) : PeerManager :=
  rescorePeer pm i 0

/-! Concrete fixture proofs used by the concrete-input theorems. -/

/-- Fixture: incumbent proof staking output 10. -/
def pB : Proof := ⟨2, 1, [10]⟩

/-- Fixture: high-score incumbent staking output 11. -/
def pC : Proof := ⟨3, 3, [11]⟩

/-- Fixture: candidate staking outputs 10 and 11. -/
def pA : Proof := ⟨1, 2, [10, 11]⟩

/-- Fixture: incumbent proof staking output 7. -/
def pQ : Proof := ⟨2, 1, [7]⟩

/-- Fixture: proof whose stake list mentions output 7 twice. -/
def pDup : Proof := ⟨1, 2, [7, 7]⟩

/-- Fixture: candidate staking outputs 7 and 8. -/
def pA4 : Proof := ⟨1, 2, [7, 8]⟩

/-- Fixture: candidate staking only output 7. -/
def pE : Proof := ⟨5, 9, [7]⟩

/-- Fixture: zero-score candidate staking outputs 10 and 11. -/
def pA0 : Proof := ⟨1, 0, [10, 11]⟩

/-! ### Basic lemmas about keys, uniqueness and the conflicting-proof set -/

theorem hasKey_false_iff {pl : Pool} {u : Nat} :
    hasKey pl u = false ↔ ∀ e ∈ pl, e.utxo ≠ u := by
  simp only [hasKey]
  rw [← Bool.not_eq_true, List.any_eq_true]
  simp [beq_iff_eq]

theorem hasKey_true_iff {pl : Pool} {u : Nat} :
    hasKey pl u = true ↔ ∃ e ∈ pl, e.utxo = u := by
  simp [hasKey, List.any_eq_true, beq_iff_eq]

theorem hasProofId_false_iff {pl : Pool} {pid : Nat} :
    hasProofId pl pid = false ↔ ∀ e ∈ pl, e.proof.id ≠ pid := by
  simp only [hasProofId]
  rw [← Bool.not_eq_true, List.any_eq_true]
  simp [beq_iff_eq]

theorem hasProofId_true_iff {pl : Pool} {pid : Nat} :
    hasProofId pl pid = true ↔ ∃ e ∈ pl, e.proof.id = pid := by
  simp [hasProofId, List.any_eq_true, beq_iff_eq]

theorem find?_key_none_iff {pl : Pool} {u : Nat} :
    pl.find? (fun e => e.utxo == u) = none ↔ hasKey pl u = false := by
  rw [List.find?_eq_none, hasKey_false_iff]
  simp [beq_iff_eq]

theorem uniq_inj {pl : Pool} (h : uniqOutputs pl) {a b : PoolEntry}
    (ha : a ∈ pl) (hb : b ∈ pl) (he : a.utxo = b.utxo) : a = b :=
  List.inj_on_of_nodup_map h ha hb he

theorem uniqOutputs_of_sublist {pl pl' : Pool} (hs : pl'.Sublist pl)
    (h : uniqOutputs pl) : uniqOutputs pl' := by
  unfold uniqOutputs at h ⊢
  exact List.Nodup.sublist (hs.map (fun e => e.utxo)) h

theorem find?_key_eq_some_of_mem {pl : Pool} (h : uniqOutputs pl) {e : PoolEntry}
    {u : Nat} (he : e ∈ pl) (hu : e.utxo = u) :
    pl.find? (fun x => x.utxo == u) = some e := by
  induction pl with
  | nil => cases he
  | cons a t ih =>
    have hnd : a.utxo ∉ t.map (fun e => e.utxo) ∧ uniqOutputs t := by
      simpa [uniqOutputs] using h
    rcases List.mem_cons.mp he with rfl | hmem
    · exact List.find?_cons_of_pos _ (by simp [hu])
    · have hne : a.utxo ≠ u := by
        intro hau
        exact hnd.1 (by rw [hau, ← hu]; exact List.mem_map_of_mem _ hmem)
      rw [List.find?_cons_of_neg _ (by simp [hne])]
      exact ih hnd.2 hmem

theorem mem_eraseP_of_pred_false {α : Type _} {l : List α} {p : α → Bool} {a : α}
    (ha : a ∈ l) (hp : p a = false) : a ∈ l.eraseP p := by
  induction l with
  | nil => cases ha
  | cons b t ih =>
    rw [List.eraseP_cons]
    cases hb : p b with
    | true =>
      simp only [cond_true]
      rcases List.mem_cons.mp ha with rfl | hmem
      · rw [hb] at hp; cases hp
      · exact hmem
    | false =>
      simp only [cond_false]
      rcases List.mem_cons.mp ha with rfl | hmem
      · exact List.mem_cons_self _ _
      · exact List.mem_cons_of_mem _ (ih hmem)

theorem eraseP_key_no_key {pl : Pool} (h : uniqOutputs pl) {u : Nat} {e : PoolEntry}
    (he : e ∈ pl.eraseP (fun x => x.utxo == u)) : e.utxo ≠ u := by
  induction pl with
  | nil => cases he
  | cons a t ih =>
    have hnd : a.utxo ∉ t.map (fun e => e.utxo) ∧ uniqOutputs t := by
      simpa [uniqOutputs] using h
    rw [List.eraseP_cons] at he
    cases hb : (a.utxo == u) with
    | true =>
      rw [hb] at he
      simp only [cond_true] at he
      intro hu
      exact hnd.1 (by
        rw [beq_iff_eq] at hb
        rw [hb, ← hu]
        exact List.mem_map_of_mem _ he)
    | false =>
      rw [hb] at he
      simp only [cond_false] at he
      rcases List.mem_cons.mp he with rfl | hmem
      · simpa [beq_iff_eq] using hb
      · exact ih hnd.2 hmem

theorem setInsert_ne_nil (cmp : Proof → Proof → Bool) (p : Proof) (s : List Proof) :
    setInsert cmp p s ≠ [] := by
  cases s with
  | nil => simp [setInsert]
  | cons q t =>
    simp only [setInsert]
    split
    · simp
    · split <;> simp

theorem mem_setInsert_elim {cmp : Proof → Proof → Bool} {p x : Proof} :
    ∀ {s : List Proof}, x ∈ setInsert cmp p s → x = p ∨ x ∈ s
  | [], hx => by simpa [setInsert] using hx
  | q :: t, hx => by
    simp only [setInsert] at hx
    split at hx
    · rcases List.mem_cons.mp hx with rfl | h
      · exact Or.inl rfl
      · exact Or.inr h
    · split at hx
      · rcases List.mem_cons.mp hx with rfl | h
        · exact Or.inr (List.mem_cons_self _ _)
        · rcases mem_setInsert_elim h with h' | h'
          · exact Or.inl h'
          · exact Or.inr (List.mem_cons_of_mem _ h')
      · exact Or.inr hx

theorem mem_setInsert_of_mem (cmp : Proof → Proof → Bool) (p : Proof) {x : Proof} :
    ∀ {s : List Proof}, x ∈ s → x ∈ setInsert cmp p s
  | [], hx => by cases hx
  | q :: t, hx => by
    simp only [setInsert]
    split
    · exact List.mem_cons_of_mem _ hx
    · split
      · rcases List.mem_cons.mp hx with rfl | h
        · exact List.mem_cons_self _ _
        · exact List.mem_cons_of_mem _ (mem_setInsert_of_mem cmp p h)
      · exact hx

theorem self_mem_setInsert {cmp : Proof → Proof → Bool} {p : Proof} :
    ∀ {s : List Proof}, (∀ q ∈ s, cmp p q = false → cmp q p = false → p = q) →
      p ∈ setInsert cmp p s
  | [], _ => by simp [setInsert]
  | q :: t, h => by
    simp only [setInsert]
    split
    · exact List.mem_cons_self _ _
    · rename_i hpq
      split
      · exact List.mem_cons_of_mem _
          (self_mem_setInsert (fun r hr => h r (List.mem_cons_of_mem _ hr)))
      · rename_i hqp
        have : p = q :=
          h q (List.mem_cons_self _ _) (by simpa using hpq) (by simpa using hqp)
        rw [this]
        exact List.mem_cons_self _ _

/-! ### Lemmas about the stake-attachment loop -/

theorem hasKey_false_of_append_single {pl : Pool} {x : PoolEntry} {u : Nat}
    (h : hasKey (pl ++ [x]) u = false) : hasKey pl u = false := by
  rw [hasKey_false_iff] at h ⊢
  exact fun e he => h e (List.mem_append.mpr (Or.inl he))

theorem attachStakes_shape (cmp : Proof → Proof → Bool) (proof : Proof) :
    ∀ (stakes : List Nat) (pl : Pool) (cf : List Proof), uniqOutputs pl →
      ∃ ad, (attachStakes cmp proof stakes pl cf).1 = pl ++ ad ∧
        uniqOutputs (pl ++ ad) ∧
        ∀ e ∈ ad, e.proof = proof ∧ e.utxo ∈ stakes ∧ hasKey pl e.utxo = false
  | [], pl, cf, hu => ⟨[], by simp [attachStakes], by simpa using hu, by simp⟩
  | u :: rest, pl, cf, hu => by
    simp only [attachStakes]
    cases hf : pl.find? (fun e => e.utxo == u) with
    | some e =>
      obtain ⟨ad, h1, h2, h3⟩ :=
        attachStakes_shape cmp proof rest pl (setInsert cmp e.proof cf) hu
      exact ⟨ad, h1, h2, fun e' he' =>
        ⟨(h3 e' he').1, List.mem_cons_of_mem _ (h3 e' he').2.1, (h3 e' he').2.2⟩⟩
    | none =>
      have hk : hasKey pl u = false := find?_key_none_iff.mp hf
      have hu' : uniqOutputs (pl ++ [⟨u, proof⟩]) := by
        unfold uniqOutputs at hu ⊢
        rw [List.map_append, List.nodup_append]
        refine ⟨hu, by simp, ?_⟩
        intro v hv hv'
        simp only [List.map_cons, List.map_nil, List.mem_singleton] at hv'
        subst hv'
        obtain ⟨e, he, heu⟩ := by
          simpa [List.mem_map] using hv
        exact absurd (hasKey_true_iff.mpr ⟨e, he, heu⟩) (by simp [hk])
      obtain ⟨ad, h1, h2, h3⟩ :=
        attachStakes_shape cmp proof rest (pl ++ [⟨u, proof⟩]) cf hu'
      refine ⟨⟨u, proof⟩ :: ad, ?_, ?_, ?_⟩
      · rw [h1, List.append_assoc, List.singleton_append]
      · simpa using h2
      · intro e' he'
        rcases List.mem_cons.mp he' with rfl | hmem
        · exact ⟨rfl, List.mem_cons_self _ _, hk⟩
        · exact ⟨(h3 e' hmem).1, List.mem_cons_of_mem _ (h3 e' hmem).2.1,
            hasKey_false_of_append_single (h3 e' hmem).2.2⟩

theorem attachStakes_hasKey_mono (cmp : Proof → Proof → Bool) (proof : Proof) :
    ∀ (stakes : List Nat) (pl : Pool) (cf : List Proof) (u : Nat),
      hasKey pl u = true → hasKey (attachStakes cmp proof stakes pl cf).1 u = true
  | [], pl, cf, u, h => by simpa [attachStakes] using h
  | v :: rest, pl, cf, u, h => by
    simp only [attachStakes]
    cases hf : pl.find? (fun e => e.utxo == v) with
    | some e => exact attachStakes_hasKey_mono cmp proof rest pl _ u h
    | none =>
      refine attachStakes_hasKey_mono cmp proof rest _ cf u ?_
      obtain ⟨e, he, heu⟩ := hasKey_true_iff.mp h
      exact hasKey_true_iff.mpr ⟨e, List.mem_append.mpr (Or.inl he), heu⟩

theorem attachStakes_covers (cmp : Proof → Proof → Bool) (proof : Proof) :
    ∀ (stakes : List Nat) (pl : Pool) (cf : List Proof) (u : Nat),
      u ∈ stakes → hasKey (attachStakes cmp proof stakes pl cf).1 u = true
  | [], _, _, _, h => by cases h
  | v :: rest, pl, cf, u, h => by
    simp only [attachStakes]
    cases hf : pl.find? (fun e => e.utxo == v) with
    | some e =>
      rcases List.mem_cons.mp h with rfl | hmem
      · refine attachStakes_hasKey_mono cmp proof rest pl _ u ?_
        have hm := List.mem_of_find?_eq_some hf
        have hb : e.utxo = u := by simpa [beq_iff_eq] using List.find?_some hf
        exact hasKey_true_iff.mpr ⟨e, hm, hb⟩
      · exact attachStakes_covers cmp proof rest pl _ u hmem
    | none =>
      rcases List.mem_cons.mp h with rfl | hmem
      · refine attachStakes_hasKey_mono cmp proof rest _ cf u ?_
        exact hasKey_true_iff.mpr ⟨⟨u, proof⟩, List.mem_append.mpr (Or.inr (by simp)), rfl⟩
      · exact attachStakes_covers cmp proof rest _ cf u hmem

theorem attachStakes_conflicts_mono (cmp : Proof → Proof → Bool) (proof : Proof) :
    ∀ (stakes : List Nat) (pl : Pool) (cf : List Proof) (x : Proof),
      x ∈ cf → x ∈ (attachStakes cmp proof stakes pl cf).2
  | [], _, _, _, h => by simpa [attachStakes] using h
  | v :: rest, pl, cf, x, h => by
    simp only [attachStakes]
    cases hf : pl.find? (fun e => e.utxo == v) with
    | some e =>
      exact attachStakes_conflicts_mono cmp proof rest pl _ x
        (mem_setInsert_of_mem cmp e.proof h)
    | none => exact attachStakes_conflicts_mono cmp proof rest _ cf x h

theorem attachStakes_conflicts_sub (cmp : Proof → Proof → Bool) (proof : Proof) :
    ∀ (stakes : List Nat) (pl : Pool) (cf : List Proof) (x : Proof),
      x ∈ (attachStakes cmp proof stakes pl cf).2 →
      x ∈ cf ∨ x = proof ∨ ∃ e ∈ pl, e.proof = x ∧ e.utxo ∈ stakes
  | [], pl, cf, x, h => by
    simp only [attachStakes] at h
    exact Or.inl h
  | v :: rest, pl, cf, x, h => by
    simp only [attachStakes] at h
    cases hf : pl.find? (fun e => e.utxo == v) with
    | some e =>
      rw [hf] at h
      rcases attachStakes_conflicts_sub cmp proof rest pl _ x h with h' | h' | ⟨e', he', h1, h2⟩
      · rcases mem_setInsert_elim h' with rfl | h''
        · have hm := List.mem_of_find?_eq_some hf
          have hb : e.utxo = v := by simpa [beq_iff_eq] using List.find?_some hf
          exact Or.inr (Or.inr ⟨e, hm, rfl, by rw [hb]; exact List.mem_cons_self _ _⟩)
        · exact Or.inl h''
      · exact Or.inr (Or.inl h')
      · exact Or.inr (Or.inr ⟨e', he', h1, List.mem_cons_of_mem _ h2⟩)
    | none =>
      rw [hf] at h
      rcases attachStakes_conflicts_sub cmp proof rest _ cf x h with h' | h' | ⟨e', he', h1, h2⟩
      · exact Or.inl h'
      · exact Or.inr (Or.inl h')
      · rcases List.mem_append.mp he' with hpl | hnew
        · exact Or.inr (Or.inr ⟨e', hpl, h1, List.mem_cons_of_mem _ h2⟩)
        · have : e' = ⟨v, proof⟩ := by simpa using hnew
          exact Or.inr (Or.inl (by rw [← h1, this]))

theorem attachStakes_conflicts_complete (cmp : Proof → Proof → Bool) (proof : Proof)
    (ps : List Proof) (htri : TrichotOn cmp ps) (hpp : proof ∈ ps) :
    ∀ (stakes : List Nat) (pl : Pool) (cf : List Proof), uniqOutputs pl →
      (∀ q ∈ cf, q ∈ ps) → (∀ e ∈ pl, e.proof ∈ ps) →
      ∀ e ∈ pl, e.utxo ∈ stakes → e.proof ∈ (attachStakes cmp proof stakes pl cf).2
  | [], _, _, _, _, _, _, _, h => by cases h
  | v :: rest, pl, cf, hu, hcf, hpl, e, he, hst => by
    simp only [attachStakes]
    by_cases hev : e.utxo = v
    · rw [find?_key_eq_some_of_mem hu he hev]
      refine attachStakes_conflicts_mono cmp proof rest pl _ e.proof ?_
      exact self_mem_setInsert (fun q hq h1 h2 =>
        htri e.proof (hpl e he) q (hcf q hq) h1 h2)
    · have hst' : e.utxo ∈ rest := by
        rcases List.mem_cons.mp hst with h' | h'
        · exact absurd h' hev
        · exact h'
      cases hf : pl.find? (fun x => x.utxo == v) with
      | some f =>
        refine attachStakes_conflicts_complete cmp proof ps htri hpp rest pl _ hu ?_ hpl e he hst'
        intro q hq
        rcases mem_setInsert_elim hq with rfl | h'
        · exact hpl f (List.mem_of_find?_eq_some hf)
        · exact hcf q h'
      | none =>
        have hk : hasKey pl v = false := find?_key_none_iff.mp hf
        have hu' : uniqOutputs (pl ++ [⟨v, proof⟩]) := by
          unfold uniqOutputs at hu ⊢
          rw [List.map_append, List.nodup_append]
          refine ⟨hu, by simp, ?_⟩
          intro w hw hw'
          simp only [List.map_cons, List.map_nil, List.mem_singleton] at hw'
          subst hw'
          obtain ⟨e', he', heu⟩ := by
            simpa [List.mem_map] using hw
          exact absurd (hasKey_true_iff.mpr ⟨e', he', heu⟩) (by simp [hk])
        refine attachStakes_conflicts_complete cmp proof ps htri hpp rest _ cf hu' hcf ?_
          e (List.mem_append.mpr (Or.inl he)) hst'
        intro e' he'
        rcases List.mem_append.mp he' with h' | h'
        · exact hpl e' h'
        · have : e' = ⟨v, proof⟩ := by simpa using h'
          rw [this]
          exact hpp

theorem attachStakes_self_conflict (cmp : Proof → Proof → Bool) (proof : Proof) :
    ∀ (stakes : List Nat) (pl : Pool) (cf : List Proof),
      proof ∈ (attachStakes cmp proof stakes pl cf).2 →
      proof ∈ cf ∨ (∃ u ∈ stakes, ∃ e ∈ pl, e.utxo = u ∧ e.proof = proof) ∨
      (∃ u s1 s2, stakes = s1 ++ u :: s2 ∧ u ∈ s2 ∧ hasKey pl u = false)
  | [], pl, cf, h => by
    simp only [attachStakes] at h
    exact Or.inl h
  | v :: rest, pl, cf, h => by
    simp only [attachStakes] at h
    cases hf : pl.find? (fun e => e.utxo == v) with
    | some e =>
      rw [hf] at h
      rcases attachStakes_self_conflict cmp proof rest pl _ h with h' | ⟨u, hu, e', he', h1, h2⟩ | ⟨u, s1, s2, h1, h2, h3⟩
      · rcases mem_setInsert_elim h' with heq | h''
        · have hm := List.mem_of_find?_eq_some hf
          have hb : e.utxo = v := by simpa [beq_iff_eq] using List.find?_some hf
          exact Or.inr (Or.inl ⟨v, List.mem_cons_self _ _, e, hm, hb, heq.symm⟩)
        · exact Or.inl h''
      · exact Or.inr (Or.inl ⟨u, List.mem_cons_of_mem _ hu, e', he', h1, h2⟩)
      · exact Or.inr (Or.inr ⟨u, v :: s1, s2, by rw [h1]; rfl, h2, h3⟩)
    | none =>
      rw [hf] at h
      rcases attachStakes_self_conflict cmp proof rest _ cf h with h' | ⟨u, hu, e', he', h1, h2⟩ | ⟨u, s1, s2, h1, h2, h3⟩
      · exact Or.inl h'
      · rcases List.mem_append.mp he' with hpl | hnew
        · exact Or.inr (Or.inl ⟨u, List.mem_cons_of_mem _ hu, e', hpl, h1, h2⟩)
        · have hev : e' = ⟨v, proof⟩ := by simpa using hnew
          have huv : u = v := by rw [← h1, hev]
          exact Or.inr (Or.inr ⟨v, [], rest, rfl, by rw [← huv]; exact hu,
            find?_key_none_iff.mp hf⟩)
      · have h3' : hasKey pl u = false := hasKey_false_of_append_single h3
        exact Or.inr (Or.inr ⟨u, v :: s1, s2, by rw [h1]; rfl, h2, h3'⟩)

theorem attachStakes_clean (cmp : Proof → Proof → Bool) (proof : Proof) :
    ∀ (stakes : List Nat) (pl : Pool) (cf : List Proof),
      (∀ u ∈ stakes, hasKey pl u = false) → stakes.Nodup →
      attachStakes cmp proof stakes pl cf =
        (pl ++ stakes.map (fun u => ⟨u, proof⟩), cf)
  | [], pl, cf, _, _ => by simp [attachStakes]
  | u :: rest, pl, cf, hk, hnd => by
    simp only [attachStakes]
    have hn : pl.find? (fun e => e.utxo == u) = none :=
      find?_key_none_iff.mpr (hk u (List.mem_cons_self _ _))
    rw [hn]
    show attachStakes cmp proof rest (pl ++ [⟨u, proof⟩]) cf =
      (pl ++ (u :: rest).map (fun u => ⟨u, proof⟩), cf)
    have hnd' : rest.Nodup ∧ u ∉ rest := by
      rw [List.nodup_cons] at hnd
      exact ⟨hnd.2, hnd.1⟩
    refine (attachStakes_clean cmp proof rest (pl ++ [⟨u, proof⟩]) cf ?_ hnd'.1).trans ?_
    case refine_2 => simp
    · intro v hv
      rw [hasKey_false_iff]
      intro e he
      rcases List.mem_append.mp he with h' | h'
      · exact hasKey_false_iff.mp (hk v (List.mem_cons_of_mem _ hv)) e h'
      · have : e = ⟨u, proof⟩ := by simpa using h'
        rw [this]
        intro hc
        exact hnd'.2 (by rw [← hc] at hv; exact hv)

theorem attachStakes_all_inserted (cmp : Proof → Proof → Bool) (proof : Proof) :
    ∀ (stakes : List Nat) (pl : Pool) (cf : List Proof),
      (attachStakes cmp proof stakes pl cf).2 = [] →
      cf = [] ∧ (∀ u ∈ stakes, hasKey pl u = false) ∧ stakes.Nodup
  | [], pl, cf, h => by
    simp only [attachStakes] at h
    exact ⟨h, by simp, List.nodup_nil⟩
  | u :: rest, pl, cf, h => by
    simp only [attachStakes] at h
    cases hf : pl.find? (fun e => e.utxo == u) with
    | some e =>
      rw [hf] at h
      obtain ⟨hcf, _, _⟩ := attachStakes_all_inserted cmp proof rest pl _ h
      exact absurd hcf (setInsert_ne_nil cmp e.proof cf)
    | none =>
      rw [hf] at h
      obtain ⟨hcf, hk, hnd⟩ := attachStakes_all_inserted cmp proof rest _ cf h
      have hku : hasKey pl u = false := find?_key_none_iff.mp hf
      refine ⟨hcf, ?_, ?_⟩
      · intro v hv
        rcases List.mem_cons.mp hv with rfl | hmem
        · exact hku
        · exact hasKey_false_of_append_single (hk v hmem)
      · rw [List.nodup_cons]
        refine ⟨?_, hnd⟩
        intro hc
        have := hk u hc
        rw [hasKey_false_iff] at this
        exact this ⟨u, proof⟩ (List.mem_append.mpr (Or.inr (by simp))) rfl

/-! ### Lemmas about the conflict-cleanup loop -/

theorem cleanupStakes_sublist (pid : Nat) :
    ∀ (stakes : List Nat) (pool res : Pool),
      cleanupStakes pid stakes pool = some res → res.Sublist pool
  | [], pool, res, h => by
    simp only [cleanupStakes, Option.some_inj] at h
    rw [← h]
  | u :: rest, pool, res, h => by
    simp only [cleanupStakes] at h
    split at h
    · cases h
    · split at h
      · exact (cleanupStakes_sublist pid rest _ res h).trans
          (List.eraseP_sublist pool)
      · exact cleanupStakes_sublist pid rest pool res h

theorem cleanupStakes_restore (pid : Nat) :
    ∀ (stakes : List Nat) (ad pl res : Pool),
      uniqOutputs (pl ++ ad) →
      (∀ e ∈ pl, e.proof.id ≠ pid) →
      (∀ e ∈ ad, e.proof.id = pid) →
      (∀ e ∈ ad, e.utxo ∈ stakes) →
      cleanupStakes pid stakes (pl ++ ad) = some res → res = pl
  | [], ad, pl, res, _, _, _, hks, h => by
    have had : ad = [] := by
      rw [List.eq_nil_iff_forall_not_mem]
      intro e he
      exact absurd (hks e he) (by simp)
    rw [had] at h
    simp only [cleanupStakes, List.append_nil, Option.some_inj] at h
    rw [← h]
  | u :: rest, ad, pl, res, hu, hpl, had, hks, h => by
    simp only [cleanupStakes] at h
    split at h
    · cases h
    · rename_i e hf
      have hem : e ∈ pl ++ ad := List.mem_of_find?_eq_some hf
      have heu : e.utxo = u := by simpa [beq_iff_eq] using List.find?_some hf
      have hua : uniqOutputs ad :=
        uniqOutputs_of_sublist (List.sublist_append_right pl ad) hu
      split at h
      · rename_i hid
        have head : e ∈ ad := by
          rcases List.mem_append.mp hem with h' | h'
          · exact absurd (by simpa [beq_iff_eq] using hid) (hpl e h')
          · exact h'
        have hplu : ∀ b ∈ pl, ¬((fun x => x.utxo == u) b = true) := by
          intro b hb hbu
          have hbe : b = e := uniq_inj hu (List.mem_append.mpr (Or.inl hb))
            hem (by rw [heu]; simpa [beq_iff_eq] using hbu)
          exact absurd (by simpa [beq_iff_eq] using hid)
            (hpl e (by rw [← hbe]; exact hb))
        rw [List.eraseP_append_right _ hplu] at h
        refine cleanupStakes_restore pid rest _ pl res ?_ hpl ?_ ?_ h
        · exact uniqOutputs_of_sublist
            ((List.eraseP_sublist ad).append_left pl) hu
        · exact fun e' he' => had e' ((List.eraseP_sublist ad).mem he')
        · intro e' he'
          have he'ad : e' ∈ ad := (List.eraseP_sublist ad).mem he'
          have hne : e'.utxo ≠ u := eraseP_key_no_key hua he'
          rcases List.mem_cons.mp (hks e' he'ad) with h' | h'
          · exact absurd h' hne
          · exact h'
      · rename_i hid
        have hepl : e ∈ pl := by
          rcases List.mem_append.mp hem with h' | h'
          · exact h'
          · exact absurd (by simp [beq_iff_eq, had e h']) hid
        refine cleanupStakes_restore pid rest ad pl res hu hpl had ?_ h
        intro e' he'
        rcases List.mem_cons.mp (hks e' he') with h' | h'
        · exfalso
          have he'e : e' = e := uniq_inj hu (List.mem_append.mpr (Or.inr he'))
            (List.mem_append.mpr (Or.inl hepl)) (by rw [h', heu])
          have : e ∈ ad := by rw [← he'e]; exact he'
          exact absurd (by simp [beq_iff_eq, had e this]) hid
        · exact h'

theorem cleanupStakes_fail_missing (pid : Nat) :
    ∀ (stakes : List Nat) (pool : Pool) (u : Nat),
      u ∈ stakes → hasKey pool u = false → cleanupStakes pid stakes pool = none
  | [], _, _, h, _ => by cases h
  | v :: rest, pool, u, h, hk => by
    simp only [cleanupStakes]
    split
    · rfl
    · rename_i e hf
      have hvu : v ≠ u := by
        intro hvu
        rw [hvu] at hf
        rw [find?_key_none_iff.mpr hk] at hf
        cases hf
      have hur : u ∈ rest := by
        rcases List.mem_cons.mp h with h' | h'
        · exact absurd h'.symm hvu
        · exact h'
      split
      · refine cleanupStakes_fail_missing pid rest _ u hur ?_
        rw [hasKey_false_iff]
        intro e' he'
        exact hasKey_false_iff.mp hk e' ((List.eraseP_sublist pool).mem he')
      · exact cleanupStakes_fail_missing pid rest pool u hur hk

theorem cleanupStakes_fail_dup (pid u : Nat) :
    ∀ (s1 s2 : List Nat) (pool : Pool),
      uniqOutputs pool → u ∈ s2 →
      (∃ e ∈ pool, e.utxo = u ∧ e.proof.id = pid) →
      cleanupStakes pid (s1 ++ u :: s2) pool = none
  | [], s2, pool, hu, hus, ⟨e, he, heu, hei⟩ => by
    simp only [List.nil_append, cleanupStakes]
    split
    · rfl
    · rename_i f hf
      rw [find?_key_eq_some_of_mem hu he heu] at hf
      have hfe : f = e := by
        have := hf.symm
        simpa using this
      subst hfe
      rw [if_pos (by simp [beq_iff_eq, hei])]
      refine cleanupStakes_fail_missing pid s2 _ u hus ?_
      rw [hasKey_false_iff]
      intro e' he'
      exact eraseP_key_no_key hu he'
  | v :: s1', s2, pool, hu, hus, ⟨e, he, heu, hei⟩ => by
    simp only [List.cons_append, cleanupStakes]
    split
    · rfl
    · rename_i f hf
      split
      · by_cases hvu : v = u
        · refine cleanupStakes_fail_missing pid (s1' ++ u :: s2) _ u
            (List.mem_append.mpr (Or.inr (List.mem_cons_self _ _))) ?_
          rw [hasKey_false_iff]
          intro e' he'
          rw [← hvu]
          exact eraseP_key_no_key hu he'
        · refine cleanupStakes_fail_dup pid u s1' s2 _
            (uniqOutputs_of_sublist (List.eraseP_sublist pool) hu) hus ?_
          refine ⟨e, mem_eraseP_of_pred_false he ?_, heu, hei⟩
          simp only [beq_eq_false_iff_ne, ne_eq]
          rw [heu]
          exact fun hc => hvu hc.symm
      · exact cleanupStakes_fail_dup pid u s1' s2 pool hu hus ⟨e, he, heu, hei⟩

theorem cleanupStakes_some (pid : Nat) :
    ∀ (stakes : List Nat) (pool : Pool),
      stakes.Nodup → (∀ u ∈ stakes, hasKey pool u = true) →
      ∃ res, cleanupStakes pid stakes pool = some res
  | [], pool, _, _ => ⟨pool, rfl⟩
  | u :: rest, pool, hnd, hk => by
    simp only [cleanupStakes]
    split
    · rename_i hf
      rw [find?_key_none_iff] at hf
      rw [hk u (List.mem_cons_self _ _)] at hf
      cases hf
    · rename_i e hf
      rw [List.nodup_cons] at hnd
      split
      · refine cleanupStakes_some pid rest _ hnd.2 ?_
        intro v hv
        obtain ⟨e', he', he'v⟩ := hasKey_true_iff.mp (hk v (List.mem_cons_of_mem _ hv))
        refine hasKey_true_iff.mpr ⟨e', ?_, he'v⟩
        refine mem_eraseP_of_pred_false he' ?_
        simp only [beq_eq_false_iff_ne, ne_eq]
        rw [he'v]
        intro hc
        exact hnd.1 (hc ▸ hv)
      · exact cleanupStakes_some pid rest pool hnd.2
          (fun v hv => hk v (List.mem_cons_of_mem _ hv))

/-! ### Lemmas about removeProof and its fold -/

theorem removeProof_mem_iff {pl : Pool} {proof : Proof} {e : PoolEntry} :
    e ∈ (removeProof pl proof).2 ↔ e ∈ pl ∧ e.proof.id ≠ proof.id := by
  simp [removeProof, List.mem_filter]

theorem removeProof_fst_iff {pl : Pool} {proof : Proof} :
    (removeProof pl proof).1 = true ↔ ∃ e ∈ pl, e.proof.id = proof.id := by
  simp [removeProof, hasProofId_true_iff]

theorem removeProof_sublist (pl : Pool) (proof : Proof) :
    (removeProof pl proof).2.Sublist pl :=
  List.filter_sublist pl

theorem foldl_removeProof_mem (qs : List Proof) :
    ∀ (pl : Pool) (e : PoolEntry),
      e ∈ qs.foldl (fun acc q => (removeProof acc q).2) pl ↔
        e ∈ pl ∧ ∀ q ∈ qs, e.proof.id ≠ q.id := by
  induction qs with
  | nil => simp
  | cons q t ih =>
    intro pl e
    simp only [List.foldl_cons]
    rw [ih]
    rw [removeProof_mem_iff]
    constructor
    · rintro ⟨⟨h1, h2⟩, h3⟩
      refine ⟨h1, ?_⟩
      intro r hr
      rcases List.mem_cons.mp hr with rfl | hmem
      · exact h2
      · exact h3 r hmem
    · rintro ⟨h1, h2⟩
      exact ⟨⟨h1, h2 q (List.mem_cons_self _ _)⟩,
        fun r hr => h2 r (List.mem_cons_of_mem _ hr)⟩

theorem foldl_removeProof_sublist (qs : List Proof) :
    ∀ (pl : Pool), (qs.foldl (fun acc q => (removeProof acc q).2) pl).Sublist pl := by
  induction qs with
  | nil => intro pl; exact List.Sublist.refl pl
  | cons q t ih =>
    intro pl
    exact (ih _).trans (removeProof_sublist pl q)

/-! ### Characterizations of addProofIfNoConflict -/

theorem mem_claimants {pl : Pool} {stakes : List Nat} {x : Proof} :
    x ∈ claimants pl stakes ↔ ∃ e ∈ pl, e.proof = x ∧ e.utxo ∈ stakes := by
  simp only [claimants, List.mem_map, List.mem_filter]
  constructor
  · rintro ⟨e, ⟨he, hc⟩, rfl⟩
    exact ⟨e, he, rfl, by simpa using hc⟩
  · rintro ⟨e, he, rfl, hs⟩
    exact ⟨e, ⟨he, by simpa using hs⟩, rfl⟩

theorem addNC_duplicated {cmp : Proof → Proof → Bool} {pl : Pool} {proof : Proof}
    (h : hasProofId pl proof.id = true) :
    addProofIfNoConflict cmp pl proof = some (.DUPLICATED, pl, []) := by
  simp [addProofIfNoConflict, h]

theorem addNC_of_clean (cmp : Proof → Proof → Bool) (pl : Pool) (proof : Proof)
    (hdup : hasProofId pl proof.id = false)
    (hk : ∀ u ∈ proof.stakes, hasKey pl u = false)
    (hnd : proof.stakes.Nodup) :
    addProofIfNoConflict cmp pl proof =
      some (.SUCCEED, pl ++ proof.stakes.map (fun u => ⟨u, proof⟩), []) := by
  unfold addProofIfNoConflict
  rw [hdup]
  simp only [Bool.false_eq_true, if_false]
  rw [attachStakes_clean cmp proof proof.stakes pl [] hk hnd]
  simp

theorem addNC_succeed {cmp : Proof → Proof → Bool} {pl : Pool} {proof : Proof}
    {pl' : Pool} {cf : List Proof}
    (h : addProofIfNoConflict cmp pl proof = some (.SUCCEED, pl', cf)) :
    hasProofId pl proof.id = false ∧ cf = [] ∧
    pl' = pl ++ proof.stakes.map (fun u => ⟨u, proof⟩) ∧
    (∀ u ∈ proof.stakes, hasKey pl u = false) ∧ proof.stakes.Nodup := by
  unfold addProofIfNoConflict at h
  by_cases hdup : hasProofId pl proof.id = true
  · rw [if_pos hdup] at h
    cases h
  · rw [if_neg hdup] at h
    by_cases hemp : (attachStakes cmp proof proof.stakes pl []).2.isEmpty = true
    · rw [if_pos hemp] at h
      rw [Option.some_inj] at h
      simp only [Prod.mk.injEq, true_and] at h
      have hcf0 : (attachStakes cmp proof proof.stakes pl []).2 = [] :=
        List.isEmpty_iff.mp hemp
      obtain ⟨-, hk, hnd⟩ :=
        attachStakes_all_inserted cmp proof proof.stakes pl [] hcf0
      have hclean := attachStakes_clean cmp proof proof.stakes pl [] hk hnd
      refine ⟨by simpa using hdup, ?_, ?_, hk, hnd⟩
      · rw [← h.2, hcf0]
      · rw [← h.1, hclean]
    · rw [if_neg hemp] at h
      rw [Option.map_eq_some'] at h
      obtain ⟨a, _, ha⟩ := h
      cases ha

theorem addNC_rejected {cmp : Proof → Proof → Bool} {pl : Pool} {proof : Proof}
    {pl' : Pool} {cf : List Proof}
    (hu : uniqOutputs pl)
    (htri : TrichotOn cmp (proof :: pl.map (fun e => e.proof)))
    (h : addProofIfNoConflict cmp pl proof = some (.REJECTED, pl', cf)) :
    pl' = pl ∧ hasProofId pl proof.id = false ∧ cf ≠ [] ∧
    (∀ x, x ∈ cf ↔ x ∈ claimants pl proof.stakes) := by
  unfold addProofIfNoConflict at h
  by_cases hdup : hasProofId pl proof.id = true
  · rw [if_pos hdup] at h
    cases h
  · rw [if_neg hdup] at h
    by_cases hemp : (attachStakes cmp proof proof.stakes pl []).2.isEmpty = true
    · rw [if_pos hemp] at h
      cases h
    · rw [if_neg hemp] at h
      rw [Option.map_eq_some'] at h
      obtain ⟨res, hres, hmk⟩ := h
      have hpl' : pl' = res := by
        have := congrArg (fun t => t.2.1) hmk
        simpa using this.symm
      have hcf : cf = (attachStakes cmp proof proof.stakes pl []).2 := by
        have := congrArg (fun t => t.2.2) hmk
        simpa using this.symm
      obtain ⟨ad, had1, had2, had3⟩ :=
        attachStakes_shape cmp proof proof.stakes pl [] hu
      have hplid : ∀ e ∈ pl, e.proof.id ≠ proof.id :=
        hasProofId_false_iff.mp (by simpa using hdup)
      have hres_pl : res = pl := by
        rw [had1] at hres
        refine cleanupStakes_restore proof.id proof.stakes ad pl res
          (had1 ▸ had2) hplid ?_ ?_ hres
        · exact fun e he => by rw [(had3 e he).1]
        · exact fun e he => (had3 e he).2.1
      have hself : proof ∉ (attachStakes cmp proof proof.stakes pl []).2 := by
        intro hpf
        rcases attachStakes_self_conflict cmp proof proof.stakes pl [] hpf with
          h' | ⟨u, hu', e, he, h1, h2⟩ | ⟨u, s1, s2, h1, h2, h3⟩
        · cases h'
        · exact hplid e he (by rw [h2])
        · have hcov : hasKey (attachStakes cmp proof proof.stakes pl []).1 u = true :=
            attachStakes_covers cmp proof proof.stakes pl [] u
              (by rw [h1]; exact List.mem_append.mpr (Or.inr (List.mem_cons_self _ _)))
          obtain ⟨e'', he'', he''u⟩ := hasKey_true_iff.mp hcov
          rw [had1] at he''
          have he''ad : e'' ∈ ad := by
            rcases List.mem_append.mp he'' with hh | hh
            · exact absurd (hasKey_true_iff.mpr ⟨e'', hh, he''u⟩) (by simp [h3])
            · exact hh
          rw [had1, h1] at hres
          have hfail : cleanupStakes proof.id (s1 ++ u :: s2) (pl ++ ad) = none := by
            refine cleanupStakes_fail_dup proof.id u s1 s2 _ (had1 ▸ had2) h2 ?_
            exact ⟨e'', he'', he''u, by rw [(had3 e'' he''ad).1]⟩
          rw [hfail] at hres
          cases hres
      refine ⟨hpl'.trans hres_pl, by simpa using hdup, ?_, ?_⟩
      · rw [hcf]
        intro hc
        rw [hc] at hemp
        exact hemp rfl
      · intro x
        constructor
        · intro hx
          rw [hcf] at hx
          rcases attachStakes_conflicts_sub cmp proof proof.stakes pl [] x hx with
            h' | h' | ⟨e, he, h1, h2⟩
          · cases h'
          · exact absurd (h' ▸ hx) hself
          · exact mem_claimants.mpr ⟨e, he, h1, h2⟩

        · intro hx
          obtain ⟨e, he, h1, h2⟩ := mem_claimants.mp hx
          rw [hcf, ← h1]
          refine attachStakes_conflicts_complete cmp proof
            (proof :: pl.map (fun e => e.proof)) htri (List.mem_cons_self _ _)
            proof.stakes pl [] hu (by simp) ?_ e he h2
          exact fun e' he' =>
            List.mem_cons_of_mem _ (List.mem_map_of_mem _ he')

theorem addNC_rejected_of (cmp : Proof → Proof → Bool) (pl : Pool) (proof : Proof)
    (hu : uniqOutputs pl)
    (hdup : hasProofId pl proof.id = false)
    (hnd : proof.stakes.Nodup)
    (e : PoolEntry) (he : e ∈ pl) (hes : e.utxo ∈ proof.stakes) :
    ∃ cf, addProofIfNoConflict cmp pl proof = some (.REJECTED, pl, cf) := by
  unfold addProofIfNoConflict
  rw [hdup]
  simp only [Bool.false_eq_true, if_false]
  have hne : (attachStakes cmp proof proof.stakes pl []).2 ≠ [] := by
    intro hc
    obtain ⟨-, hk, -⟩ := attachStakes_all_inserted cmp proof proof.stakes pl [] hc
    have := hk e.utxo hes
    rw [hasKey_false_iff] at this
    exact this e he rfl
  rw [if_neg (by simpa [List.isEmpty_iff] using hne)]
  obtain ⟨ad, had1, had2, had3⟩ := attachStakes_shape cmp proof proof.stakes pl [] hu
  obtain ⟨res, hres⟩ := cleanupStakes_some proof.id proof.stakes
    (attachStakes cmp proof proof.stakes pl []).1 hnd
    (fun u hu' => attachStakes_covers cmp proof proof.stakes pl [] u hu')
  have hres_pl : res = pl := by
    rw [had1] at hres
    refine cleanupStakes_restore proof.id proof.stakes ad pl res
      (had1 ▸ had2) (hasProofId_false_iff.mp hdup) ?_ ?_ hres
    · exact fun e' he' => by rw [(had3 e' he').1]
    · exact fun e' he' => (had3 e' he').2.1
  refine ⟨(attachStakes cmp proof proof.stakes pl []).2, ?_⟩
  rw [hres, hres_pl]
  rfl

theorem addNC_uniq {cmp : Proof → Proof → Bool} {pl : Pool} {proof : Proof}
    {st : AddProofStatus} {pl' : Pool} {cf : List Proof}
    (hu : uniqOutputs pl)
    (h : addProofIfNoConflict cmp pl proof = some (st, pl', cf)) :
    uniqOutputs pl' := by
  unfold addProofIfNoConflict at h
  by_cases hdup : hasProofId pl proof.id = true
  · rw [if_pos hdup] at h
    rw [Option.some_inj] at h
    simp only [Prod.mk.injEq] at h
    rw [← h.2.1]
    exact hu
  · rw [if_neg hdup] at h
    by_cases hemp : (attachStakes cmp proof proof.stakes pl []).2.isEmpty = true
    · rw [if_pos hemp] at h
      rw [Option.some_inj] at h
      simp only [Prod.mk.injEq] at h
      obtain ⟨ad, had1, had2, -⟩ := attachStakes_shape cmp proof proof.stakes pl [] hu
      rw [← h.2.1, had1]
      exact had2
    · rw [if_neg hemp] at h
      rw [Option.map_eq_some'] at h
      obtain ⟨res, hres, hmk⟩ := h
      have hpl' : pl' = res := by
        have := congrArg (fun t => t.2.1) hmk
        simpa using this.symm
      obtain ⟨ad, had1, had2, -⟩ := attachStakes_shape cmp proof proof.stakes pl [] hu
      rw [hpl']
      exact uniqOutputs_of_sublist (cleanupStakes_sublist _ _ _ _ hres)
        (had1 ▸ had2)

/-! ### Equation lemmas and invariant preservation for addProofIfPreferred -/

theorem addPreferred_eq_none {cmp : Proof → Proof → Bool} {pl : Pool} {proof : Proof}
    (h : addProofIfNoConflict cmp pl proof = none) :
    addProofIfPreferred cmp pl proof = none := by
  unfold addProofIfPreferred
  rw [h]
  rfl

theorem addPreferred_eq_none_of_empty {cmp : Proof → Proof → Bool} {pl : Pool}
    {proof : Proof} {pl1 : Pool}
    (h : addProofIfNoConflict cmp pl proof = some (.REJECTED, pl1, [])) :
    addProofIfPreferred cmp pl proof = none := by
  unfold addProofIfPreferred
  rw [h]
  rfl

theorem addPreferred_eq_of_other {cmp : Proof → Proof → Bool} {pl : Pool}
    {proof : Proof} {r : AddProofStatus × Pool × List Proof}
    (h : addProofIfNoConflict cmp pl proof = some r) (hst : r.1 ≠ .REJECTED) :
    addProofIfPreferred cmp pl proof = some r := by
  unfold addProofIfPreferred
  rw [h]
  obtain ⟨st, pl1, cf⟩ := r
  cases st with
  | REJECTED => exact absurd rfl hst
  | DUPLICATED => rfl
  | SUCCEED => rfl

theorem addPreferred_eq_of_rejected {cmp : Proof → Proof → Bool} {pl : Pool}
    {proof : Proof} {pl1 : Pool} {c : Proof} {t : List Proof}
    (h : addProofIfNoConflict cmp pl proof = some (.REJECTED, pl1, c :: t)) :
    addProofIfPreferred cmp pl proof =
      (if cmp proof c then
        (addProofIfNoConflict cmp
            ((c :: t).foldl (fun acc q => (removeProof acc q).2) pl1) proof).bind
          (fun r2 => if r2.1 = AddProofStatus.SUCCEED
            then some (.SUCCEED, r2.2.1, c :: t) else none)
       else some (.REJECTED, pl1, c :: t)) := by
  unfold addProofIfPreferred
  rw [h]
  rfl

theorem addPreferred_uniq {cmp : Proof → Proof → Bool} {pl : Pool} {proof : Proof}
    {st : AddProofStatus} {pl' : Pool} {cf : List Proof}
    (hu : uniqOutputs pl)
    (h : addProofIfPreferred cmp pl proof = some (st, pl', cf)) :
    uniqOutputs pl' := by
  cases hnc : addProofIfNoConflict cmp pl proof with
  | none =>
    rw [addPreferred_eq_none hnc] at h
    cases h
  | some r =>
    obtain ⟨st1, pl1, cf1⟩ := r
    have hu1 : uniqOutputs pl1 := addNC_uniq hu hnc
    cases st1 with
    | DUPLICATED =>
      rw [addPreferred_eq_of_other hnc (by simp)] at h
      rw [Option.some_inj] at h
      simp only [Prod.mk.injEq] at h
      rw [← h.2.1]
      exact hu1
    | SUCCEED =>
      rw [addPreferred_eq_of_other hnc (by simp)] at h
      rw [Option.some_inj] at h
      simp only [Prod.mk.injEq] at h
      rw [← h.2.1]
      exact hu1
    | REJECTED =>
      cases cf1 with
      | nil =>
        rw [addPreferred_eq_none_of_empty hnc] at h
        cases h
      | cons c t =>
        rw [addPreferred_eq_of_rejected hnc] at h
        split at h
        · rw [Option.bind_eq_some] at h
          obtain ⟨r2, hr2, hb2⟩ := h
          obtain ⟨st2, pl2', cf2⟩ := r2
          have hu2 : uniqOutputs pl2' :=
            addNC_uniq (uniqOutputs_of_sublist
              (foldl_removeProof_sublist (c :: t) pl1) hu1) hr2
          split at hb2
          · rw [Option.some_inj] at hb2
            simp only [Prod.mk.injEq] at hb2
            rw [← hb2.2.1]
            exact hu2
          · cases hb2
        · rw [Option.some_inj] at h
          simp only [Prod.mk.injEq] at h
          rw [← h.2.1]
          exact hu1

theorem stepPool_uniq {cmp : Proof → Proof → Bool} {pl pl' : Pool} {op : PoolOp}
    (hu : uniqOutputs pl) (h : stepPool cmp pl op = some pl') : uniqOutputs pl' := by
  cases op with
  | addNoConflict p =>
    simp only [stepPool, Option.map_eq_some'] at h
    obtain ⟨r, hr, hr2⟩ := h
    obtain ⟨a, b, c⟩ := r
    rw [← hr2]
    exact addNC_uniq hu hr
  | addPreferred p =>
    simp only [stepPool, Option.map_eq_some'] at h
    obtain ⟨r, hr, hr2⟩ := h
    obtain ⟨a, b, c⟩ := r
    rw [← hr2]
    exact addPreferred_uniq hu hr
  | remove p =>
    simp only [stepPool, Option.some_inj] at h
    rw [← h]
    exact uniqOutputs_of_sublist (removeProof_sublist pl p) hu

theorem runPool_uniq (cmp : Proof → Proof → Bool) :
    ∀ (ops : List PoolOp) (pl0 pl : Pool),
      uniqOutputs pl0 → runPool cmp ops pl0 = some pl → uniqOutputs pl
  | [], pl0, pl, hu, h => by
    simp only [runPool, Option.some_inj] at h
    rw [← h]
    exact hu
  | op :: rest, pl0, pl, hu, h => by
    simp only [runPool, Option.bind_eq_some] at h
    obtain ⟨pl1, h1, h2⟩ := h
    exact runPool_uniq cmp rest pl1 pl (stepPool_uniq hu h1) h2

theorem find?_stakes_map (A : Proof) :
    ∀ (stakes : List Nat) (O : Nat), O ∈ stakes →
      (stakes.map (fun u => (⟨u, A⟩ : PoolEntry))).find? (fun e => e.utxo == O) =
        some ⟨O, A⟩
  | [], O, h => by cases h
  | u :: rest, O, h => by
    rcases List.mem_cons.mp h with rfl | hmem
    · simp only [List.map_cons]
      exact List.find?_cons_of_pos _ (by simp)
    · by_cases huo : u = O
      · subst huo
        simp only [List.map_cons]
        exact List.find?_cons_of_pos _ (by simp)
      · simp only [List.map_cons]
        rw [List.find?_cons_of_neg _ (by simp [huo])]
        exact find?_stakes_map A rest O hmem

/-! ### Claim theorems -/

/-- C1: for every sequence of `addProofIfNoConflict`, `addProofIfPreferred`
and `removeProof` public calls starting from the empty pool, every reachable
state maps each staked output to at most one entry.  Every prefix of a call
sequence is itself a call sequence, so this covers every point between public
calls; a call that aborts on a failed assertion yields no state at all. -/
theorem c1_by_output_uniqueness (cmp : Proof → Proof → Bool) (ops : List PoolOp)
    (pl : Pool) (h : runPool cmp ops [] = some pl) : uniqOutputs pl :=
  runPool_uniq cmp ops [] pl List.Pairwise.nil h

/-- C1 witness: the invariant evaluated on the state reached by a concrete
four-call sequence (insert, preferred-replace, remove, insert). -/
theorem c1_by_output_uniqueness_witness : uniqOutputs [⟨10, pB⟩] :=
  c1_by_output_uniqueness scoreCmp
    [.addNoConflict pQ, .addPreferred pA4, .remove pA4, .addNoConflict pB]
    [⟨10, pB⟩] (by rfl)

/-- C2: if `addProofIfNoConflict` returns `REJECTED`, the entry set — hence
both the by-output and the by-proofid view — after the call equals the entry
set before it, and the conflicting set is exactly the deduplicated set of
proofs already claiming at least one of the candidate's staked outputs.
Assumed: the pool satisfies the by-output invariant and the comparator is
total on the proofs involved (an invalid `std::set` comparator is UB). -/
theorem c2_rejection_atomicity (cmp : Proof → Proof → Bool) (pl pl' : Pool)
    (proof : Proof) (cf : List Proof)
    (hu : uniqOutputs pl)
    (htri : TrichotOn cmp (proof :: pl.map (fun e => e.proof)))
    (h : addProofIfNoConflict cmp pl proof = some (.REJECTED, pl', cf)) :
    pl' = pl ∧ cf.toFinset = (claimants pl proof.stakes).toFinset := by
  obtain ⟨h1, -, -, h4⟩ := addNC_rejected hu htri h
  refine ⟨h1, ?_⟩
  ext x
  simp only [List.mem_toFinset]
  exact h4 x

/-- C2 witness: a one-stake candidate rejected against a one-entry pool. -/
theorem c2_rejection_atomicity_witness :
    [⟨7, pQ⟩] = ([⟨7, pQ⟩] : Pool) ∧
    [pQ].toFinset = (claimants [⟨7, pQ⟩] pE.stakes).toFinset :=
  c2_rejection_atomicity scoreCmp [⟨7, pQ⟩] [⟨7, pQ⟩] pE [pQ]
    (by decide) (by decide) (by rfl)

/-- C5: a proof whose id is already in the by-proofid index yields
`DUPLICATED`, leaves the entry set unchanged and the out-parameter cleared;
hence inserting the same proof (staking at least one output, per the data
model) twice gives `SUCCEED` then `DUPLICATED` with the state — and so the
pool size — unchanged by the second call. -/
theorem c5_duplicate_insert (cmp : Proof → Proof → Bool) (pl pl1 : Pool)
    (proof : Proof) (cf1 : List Proof) :
    (hasProofId pl proof.id = true →
      addProofIfNoConflict cmp pl proof = some (.DUPLICATED, pl, [])) ∧
    (proof.stakes ≠ [] →
      addProofIfNoConflict cmp pl proof = some (.SUCCEED, pl1, cf1) →
      addProofIfNoConflict cmp pl1 proof = some (.DUPLICATED, pl1, [])) := by
  constructor
  · exact addNC_duplicated
  · intro hne hs
    obtain ⟨-, -, hpl1, -, -⟩ := addNC_succeed hs
    refine addNC_duplicated ?_
    rw [hpl1]
    cases hst : proof.stakes with
    | nil => exact absurd hst hne
    | cons u rest =>
      refine hasProofId_true_iff.mpr ⟨⟨u, proof⟩, ?_, rfl⟩
      exact List.mem_append.mpr
        (Or.inr (List.mem_map_of_mem _ (List.mem_cons_self _ _)))

/-- C5 witness: both conjuncts applied — a duplicate against a pool already
holding the proof, and the insert-twice scenario from the empty pool. -/
theorem c5_duplicate_insert_witness :
    addProofIfNoConflict scoreCmp [⟨7, pQ⟩] pQ =
      some (.DUPLICATED, [⟨7, pQ⟩], []) ∧
    addProofIfNoConflict scoreCmp [⟨7, pQ⟩] pQ =
      some (.DUPLICATED, [⟨7, pQ⟩], []) :=
  ⟨(c5_duplicate_insert scoreCmp [⟨7, pQ⟩] [] pQ []).1 (by decide),
   (c5_duplicate_insert scoreCmp [] [⟨7, pQ⟩] pQ []).2 (by decide) (by rfl)⟩

/-- C6: `rescan` empties the entry set and replays every previously held
entry through `registerProof`; running it twice in a row therefore replays
nothing the second time and leaves the registry — in fact the whole state —
exactly as after the first rescan, for any `registerProof` whatsoever. -/
theorem c6_rescan_idempotent {R : Type _} (registerProof : R → Proof → R)
    (s : Pool × R) :
    rescan registerProof (rescan registerProof s) = rescan registerProof s := rfl

/-- C7: `removeProof` removes every entry carrying the proof's id (from the
single entry set underlying both indexes), removes nothing else, returns true
iff at least one such entry was present, and on false leaves the pool
unchanged; afterwards the by-proofid lookup misses. -/
theorem c7_removeProof_spec (pl : Pool) (proof : Proof) :
    ((removeProof pl proof).1 = true ↔ ∃ e ∈ pl, e.proof.id = proof.id) ∧
    (∀ e ∈ (removeProof pl proof).2, e.proof.id ≠ proof.id) ∧
    (∀ e ∈ pl, e.proof.id ≠ proof.id → e ∈ (removeProof pl proof).2) ∧
    getProofById (removeProof pl proof).2 proof.id = none ∧
    ((removeProof pl proof).1 = false → (removeProof pl proof).2 = pl) := by
  refine ⟨removeProof_fst_iff, ?_, ?_, ?_, ?_⟩
  · exact fun e he => (removeProof_mem_iff.mp he).2
  · exact fun e he h => removeProof_mem_iff.mpr ⟨he, h⟩
  · have hf : (removeProof pl proof).2.find? (fun e => e.proof.id == proof.id) = none := by
      rw [List.find?_eq_none]
      intro e he
      simp only [beq_iff_eq]
      exact (removeProof_mem_iff.mp he).2
    simp [getProofById, hf]
  · intro hb
    have hall : ∀ e ∈ pl, e.proof.id ≠ proof.id := by
      rw [← hasProofId_false_iff]
      simpa [removeProof] using hb
    simp only [removeProof]
    rw [List.filter_eq_self.mpr]
    intro e he
    simpa using hall e he

/-- C7 witness: removal of a present proof from a one-entry pool. -/
theorem c7_removeProof_spec_witness :
    ((removeProof [⟨10, pB⟩] pB).1 = true ↔
      ∃ e ∈ [(⟨10, pB⟩ : PoolEntry)], e.proof.id = pB.id) ∧
    (∀ e ∈ (removeProof [⟨10, pB⟩] pB).2, e.proof.id ≠ pB.id) ∧
    (∀ e ∈ [(⟨10, pB⟩ : PoolEntry)], e.proof.id ≠ pB.id →
      e ∈ (removeProof [⟨10, pB⟩] pB).2) ∧
    getProofById (removeProof [⟨10, pB⟩] pB).2 pB.id = none ∧
    ((removeProof [⟨10, pB⟩] pB).1 = false → (removeProof [⟨10, pB⟩] pB).2 = [⟨10, pB⟩]) :=
  c7_removeProof_spec [⟨10, pB⟩] pB

/-- C8: `removePeer(i)` is literally defined in `peermanager.h` as
`rescorePeer(i, 0)`, so the two produce identical states, in particular
identical slots, slot count and fragmentation. -/
theorem c8_removePeer_is_rescore_zero (pm : PeerManager) (i : Nat) :
    removePeer pm i = rescorePeer pm i 0 ∧
    (removePeer pm i).slots = (rescorePeer pm i 0).slots ∧
    (removePeer pm i).slotCount = (rescorePeer pm i 0).slotCount ∧
    (removePeer pm i).fragmentation = (rescorePeer pm i 0).fragmentation :=
  ⟨rfl, rfl, rfl, rfl⟩

/-- C9: for a slot with `start ≤ stop`, exactly one of `contains`, `precedes`
and `follows` holds of any value; without that precondition `precedes` and
`follows` can hold simultaneously, witnessed by the slot `[5, 3)` at 4. -/
theorem c9_slot_trichotomy :
    (∀ (s : Slot) (x : Nat), s.start ≤ s.stop →
      ((s.contains x = true ∧ s.precedes x = false ∧ s.follows x = false) ∨
       (s.contains x = false ∧ s.precedes x = true ∧ s.follows x = false) ∨
       (s.contains x = false ∧ s.precedes x = false ∧ s.follows x = true))) ∧
    ((Slot.mk 5 3).precedes 4 = true ∧ (Slot.mk 5 3).follows 4 = true) := by
  constructor
  · intro s x h
    simp [Slot.contains, Slot.precedes, Slot.follows]
    omega
  · exact ⟨rfl, rfl⟩

/-- C9 witness: the trichotomy instantiated at the slot `[2, 7)` and value 4. -/
theorem c9_slot_trichotomy_witness :
    ((Slot.mk 2 7).contains 4 = true ∧ (Slot.mk 2 7).precedes 4 = false ∧
      (Slot.mk 2 7).follows 4 = false) ∨
    ((Slot.mk 2 7).contains 4 = false ∧ (Slot.mk 2 7).precedes 4 = true ∧
      (Slot.mk 2 7).follows 4 = false) ∨
    ((Slot.mk 2 7).contains 4 = false ∧ (Slot.mk 2 7).precedes 4 = false ∧
      (Slot.mk 2 7).follows 4 = true) :=
  c9_slot_trichotomy.1 ⟨2, 7⟩ 4 (by decide)

/-- C10: a proof staking the same output twice, added to a pool not holding
that output, does not get the clean `REJECTED` the claim describes: the
conflict-cleanup loop erases the proof's own entry at the first occurrence
and then fails `assert(it != pool.end())` at the second, aborting (modelled
as `none`).  The claim's "never `SUCCEED`" part does hold: no proof with
duplicate stakes is ever admitted. -/
theorem c10_self_collision_aborts :
    addProofIfNoConflict scoreCmp [] pDup = none ∧
    ∀ (cmp : Proof → Proof → Bool) (pl pl' : Pool) (cf : List Proof) (proof : Proof),
      ¬proof.stakes.Nodup →
      addProofIfNoConflict cmp pl proof ≠ some (.SUCCEED, pl', cf) := by
  refine ⟨rfl, ?_⟩
  intro cmp pl pl' cf proof hnd h
  exact hnd (addNC_succeed h).2.2.2.2

/-- C10 witness: the never-`SUCCEED` part applied to the concrete
self-colliding proof on the empty pool. -/
theorem c10_self_collision_aborts_witness :
    addProofIfNoConflict scoreCmp [] pDup ≠ some (.SUCCEED, [], []) :=
  c10_self_collision_aborts.2 scoreCmp [] [] [] pDup (by decide)

/-- C3 counterexample: proof `pA` stakes output 10 held by `pB` and the
comparator ranks `pA` ahead of `pB`, yet `addProofIfPreferred` returns
`REJECTED` with the pool unchanged — a second conflicting proof `pC`
outranking `pA` is the set's `begin()` element and wins the single
comparison, so the claim as stated is false. -/
theorem c3_counterexample :
    getProofByOutpoint [⟨10, pB⟩, ⟨11, pC⟩] 10 = some pB ∧
    10 ∈ pA.stakes ∧ scoreCmp pA pB = true ∧
    addProofIfPreferred scoreCmp [⟨10, pB⟩, ⟨11, pC⟩] pA =
      some (.REJECTED, [⟨10, pB⟩, ⟨11, pC⟩], [pC, pB]) := by decide

/-- C3 (amended): when `B` is the only proof conflicting with candidate `A`
(in particular the scenario of the claim with no further conflict), `A` not
already present and `A`'s stakes distinct: if the comparator ranks `A` ahead
of `B` then `addProofIfPreferred` returns `SUCCEED`, `B` is gone, and the
output lookup returns `A`; if it ranks `A` below `B` the call returns
`REJECTED` with the pool unchanged and `B` still holding the output. -/
theorem c3_preference_resolution (cmp : Proof → Proof → Bool) (pl : Pool)
    (A B : Proof) (O : Nat)
    (hu : uniqOutputs pl)
    (htri : TrichotOn cmp (A :: pl.map (fun e => e.proof)))
    (hdup : hasProofId pl A.id = false)
    (hnd : A.stakes.Nodup)
    (hB : (⟨O, B⟩ : PoolEntry) ∈ pl)
    (hO : O ∈ A.stakes)
    (honly : ∀ e ∈ pl, e.utxo ∈ A.stakes → e.proof = B) :
    (cmp A B = true →
      (addProofIfPreferred cmp pl A).map
          (fun r => (r.1, hasProofId r.2.1 B.id, getProofByOutpoint r.2.1 O)) =
        some (.SUCCEED, false, some A)) ∧
    (cmp A B = false →
      (addProofIfPreferred cmp pl A).map (fun r => (r.1, r.2.1)) =
        some (.REJECTED, pl) ∧
      getProofByOutpoint pl O = some B) := by
  obtain ⟨cf0, hnc⟩ := addNC_rejected_of cmp pl A hu hdup hnd ⟨O, B⟩ hB hO
  obtain ⟨-, -, hne, hiff⟩ := addNC_rejected hu htri hnc
  have hallB : ∀ x ∈ cf0, x = B := by
    intro x hx
    obtain ⟨e, he, h1, h2⟩ := mem_claimants.mp ((hiff x).mp hx)
    rw [← h1]
    exact honly e he h2
  obtain ⟨c, t, hct⟩ : ∃ c t, cf0 = c :: t := by
    cases cf0 with
    | nil => exact absurd rfl hne
    | cons c t => exact ⟨c, t, rfl⟩
  subst hct
  have hcB : c = B := hallB c (List.mem_cons_self _ _)
  have hgetB : getProofByOutpoint pl O = some B := by
    unfold getProofByOutpoint
    rw [find?_key_eq_some_of_mem hu hB rfl]
    rfl
  constructor
  · intro hAB
    have hBmem : B ∈ c :: t := hcB ▸ List.mem_cons_self c t
    have hsub2 : ((c :: t).foldl (fun acc q => (removeProof acc q).2) pl).Sublist pl :=
      foldl_removeProof_sublist (c :: t) pl
    have hdup2 : hasProofId ((c :: t).foldl (fun acc q => (removeProof acc q).2) pl)
        A.id = false := by
      rw [hasProofId_false_iff]
      intro e he
      exact hasProofId_false_iff.mp hdup e (hsub2.mem he)
    have hk2 : ∀ u ∈ A.stakes,
        hasKey ((c :: t).foldl (fun acc q => (removeProof acc q).2) pl) u = false := by
      intro u hu'
      rw [hasKey_false_iff]
      intro e he heu
      obtain ⟨hepl, hq⟩ := (foldl_removeProof_mem (c :: t) pl e).mp he
      have heB : e.proof = B := honly e hepl (heu ▸ hu')
      exact hq B hBmem (by rw [heB])
    have hretry := addNC_of_clean cmp
      ((c :: t).foldl (fun acc q => (removeProof acc q).2) pl) A hdup2 hk2 hnd
    have hBA : B.id ≠ A.id := fun hc =>
      hasProofId_false_iff.mp hdup ⟨O, B⟩ hB hc
    have hfin1 : hasProofId
        (((c :: t).foldl (fun acc q => (removeProof acc q).2) pl) ++
          A.stakes.map (fun u => ⟨u, A⟩)) B.id = false := by
      rw [hasProofId_false_iff]
      intro e he
      rcases List.mem_append.mp he with h' | h'
      · obtain ⟨hepl, hq⟩ := (foldl_removeProof_mem (c :: t) pl e).mp h'
        exact hq B hBmem
      · obtain ⟨u, hu', rfl⟩ := List.mem_map.mp h'
        exact fun hc => hBA (by rw [← hc])
    have hfin2 : getProofByOutpoint
        (((c :: t).foldl (fun acc q => (removeProof acc q).2) pl) ++
          A.stakes.map (fun u => ⟨u, A⟩)) O = some A := by
      unfold getProofByOutpoint
      rw [List.find?_append]
      rw [find?_key_none_iff.mpr (hk2 O hO), Option.none_or]
      rw [find?_stakes_map A A.stakes O hO]
      rfl
    rw [addPreferred_eq_of_rejected hnc, if_pos (hcB ▸ hAB), hretry]
    simp only [List.foldl_cons] at hfin1 hfin2
    simp [hfin1, hfin2]
  · intro hAB
    rw [addPreferred_eq_of_rejected hnc, if_neg (by simp [hcB ▸ hAB])]
    exact ⟨rfl, hgetB⟩

/-- C3 witness: both directions on a one-entry pool — high-score `pA`
replaces `pB` and owns output 10; zero-score `pA0` is rejected and `pB`
stays. -/
theorem c3_preference_resolution_witness :
    ((addProofIfPreferred scoreCmp [⟨10, pB⟩] pA).map
        (fun r => (r.1, hasProofId r.2.1 pB.id, getProofByOutpoint r.2.1 10)) =
      some (.SUCCEED, false, some pA)) ∧
    ((addProofIfPreferred scoreCmp [⟨10, pB⟩] pA0).map (fun r => (r.1, r.2.1)) =
        some (.REJECTED, [⟨10, pB⟩]) ∧
      getProofByOutpoint [⟨10, pB⟩] 10 = some pB) :=
  ⟨(c3_preference_resolution scoreCmp [⟨10, pB⟩] pA pB 10 (by decide) (by decide)
      (by decide) (by decide) (by decide) (by decide) (by decide)).1 (by decide),
   (c3_preference_resolution scoreCmp [⟨10, pB⟩] pA0 pB 10 (by decide) (by decide)
      (by decide) (by decide) (by decide) (by decide) (by decide)).2 (by decide)⟩

/-- C4 counterexample: the pool holds `pQ` at output 7, the candidate `pDup`
stakes 7 twice; the first add is `REJECTED` and the comparator prefers the
candidate over the single conflicting proof, yet the whole call aborts
(`none`): the retried add hits the cleanup assertion instead of returning
`SUCCEED`. -/
theorem c4_counterexample :
    addProofIfNoConflict scoreCmp [⟨7, pQ⟩] pDup =
      some (.REJECTED, [⟨7, pQ⟩], [pQ]) ∧
    scoreCmp pDup pQ = true ∧
    addProofIfPreferred scoreCmp [⟨7, pQ⟩] pDup = none := by decide

/-- C4 (amended): for every pool satisfying the by-output invariant, a
comparator total on the proofs involved, and a candidate whose staked
outputs are pairwise distinct, if the initial `addProofIfNoConflict` is
`REJECTED` and the comparator prefers the candidate over the best
conflicting proof, then the retry after removing every conflicting proof
returns `SUCCEED` (the assertion on the retry result holds). -/
theorem c4_retry_succeeds (cmp : Proof → Proof → Bool) (pl pl1 : Pool)
    (proof c : Proof) (t : List Proof)
    (hu : uniqOutputs pl)
    (htri : TrichotOn cmp (proof :: pl.map (fun e => e.proof)))
    (hnd : proof.stakes.Nodup)
    (h : addProofIfNoConflict cmp pl proof = some (.REJECTED, pl1, c :: t))
    (hc : cmp proof c = true) :
    (addProofIfPreferred cmp pl proof).map (fun r => r.1) = some .SUCCEED := by
  obtain ⟨hpl1, hdup, -, hiff⟩ := addNC_rejected hu htri h
  rw [hpl1] at h
  have hdup2 : hasProofId ((c :: t).foldl (fun acc q => (removeProof acc q).2) pl)
      proof.id = false := by
    rw [hasProofId_false_iff]
    intro e he
    exact hasProofId_false_iff.mp hdup e
      ((foldl_removeProof_sublist (c :: t) pl).mem he)
  have hk2 : ∀ u ∈ proof.stakes,
      hasKey ((c :: t).foldl (fun acc q => (removeProof acc q).2) pl) u = false := by
    intro u hu'
    rw [hasKey_false_iff]
    intro e he heu
    obtain ⟨hepl, hq⟩ := (foldl_removeProof_mem (c :: t) pl e).mp he
    have hcl : e.proof ∈ c :: t :=
      (hiff e.proof).mpr (mem_claimants.mpr ⟨e, hepl, rfl, heu ▸ hu'⟩)
    exact hq e.proof hcl rfl
  have hretry := addNC_of_clean cmp
    ((c :: t).foldl (fun acc q => (removeProof acc q).2) pl) proof hdup2 hk2 hnd
  rw [addPreferred_eq_of_rejected h, if_pos hc, hretry]
  simp

/-- C4 witness: concrete retry — candidate `pA4` with distinct stakes 7 and 8
is rejected against `pQ`, preferred, and the overall call succeeds. -/
theorem c4_retry_succeeds_witness :
    (addProofIfPreferred scoreCmp [⟨7, pQ⟩] pA4).map (fun r => r.1) =
      some .SUCCEED :=
  c4_retry_succeeds scoreCmp [⟨7, pQ⟩] [⟨7, pQ⟩] pA4 pQ [] (by decide)
    (by decide) (by decide) (by rfl) (by decide)

end Avalanche
